import Mathlib

set_option linter.unusedVariables false
set_option maxRecDepth 8000

/-! Verification of the utility scripts of the tesis_2025 repository:
the quotation normalizer (scripts/fix_quotes.py) and the repository
Markdown generator (scripts/generate_repo_markdown.py).  Python strings
are modelled as lists of characters, byte buffers as lists of natural
numbers below 256, and filesystem interaction is made explicit through
parameters and result types. -/

/-- ASCII double quote, code point 34. -/
def dqChar : Char := Char.ofNat 34

/-- ASCII apostrophe, code point 39. -/
def apChar : Char := Char.ofNat 39

/-- ASCII backtick, code point 96. -/
def btChar : Char := Char.ofNat 96

/-- Line feed, code point 10. -/
def nlChar : Char := Char.ofNat 10

/-- Python str.split with a one-character separator: splits on every
occurrence of the separator and keeps empty pieces, so the result always
has one more piece than there are separators. -/
def pySplitChar (sep : Char) : List Char → List (List Char)
  | [] => [[]]
  | x :: xs =>
    if x = sep then [] :: pySplitChar sep xs
    else
      match pySplitChar sep xs with
      | [] => [[x]]
      | g :: gs => (x :: g) :: gs

/-! ## scripts/fix_quotes.py -/

/-- Membership in the first REPLACEMENTS character class of fix_quotes.py:
the regex class with the four code points U+201C, U+201D, U+201E, U+201F. -/
def smartDouble (c : Char) : Bool :=
  c == Char.ofNat 0x201C || c == Char.ofNat 0x201D ||
  c == Char.ofNat 0x201E || c == Char.ofNat 0x201F

/-- Membership in the second REPLACEMENTS character class of fix_quotes.py:
the regex class with the four code points U+2018, U+2019, U+201A, U+201B. -/
def smartSingle (c : Char) : Bool :=
  c == Char.ofNat 0x2018 || c == Char.ofNat 0x2019 ||
  c == Char.ofNat 0x201A || c == Char.ofNat 0x201B

/-- Per-character effect of the two REPLACEMENTS substitutions of
fix_quotes.py: smart double quotes become the ASCII double quote, smart
single quotes become the ASCII apostrophe, all other characters are kept. -/
def replaceSmart (c : Char) : Char :=
  if smartDouble c then dqChar else if smartSingle c then apChar else c

/-- One step of the DOUBLE_QUOTE_PATTERN substitution, expressed on the
pieces obtained by splitting at every ASCII double quote: the non-greedy
regex pairs consecutive quotes left to right, so piece 0 is kept, pieces 1
and 2 become an opening-marker/closing-marker span, and so on; a final
unpaired quote is restored verbatim. -/
def joinConverted : List (List Char) → List Char
  | [] => []
  | [p] => p
  | [p, q] => p ++ dqChar :: q
  | p :: q :: r :: rest =>
    p ++ btChar :: btChar :: (q ++ apChar :: apChar :: joinConverted (r :: rest))

/-- normalize_text of fix_quotes.py: first apply the REPLACEMENTS
substitutions character by character, then rewrite every non-greedy
double-quote-delimited span to two backticks before it and two
apostrophes after it (the regex sub is modelled by splitting at quotes
and rejoining with the markers; convertSpansRec below is the operational
left-to-right scan of the same regex and is proved equal to this). -/
def normalize_text (s : List Char) : List Char :=
  joinConverted (pySplitChar dqChar (s.map replaceSmart))

/-- Position of the first ASCII double quote in a string: returns the part
before it and the part after it, or none when the string has no quote. -/
def findQuote : List Char → Option (List Char × List Char)
  | [] => none
  | x :: xs =>
    if x = dqChar then some ([], xs)
    else (findQuote xs).map (fun r => (x :: r.1, r.2))

theorem findQuote_some_length :
    ∀ (l a b : List Char), findQuote l = some (a, b) → b.length < l.length := by
  intro l
  induction l with
  | nil => intro a b h; simp [findQuote] at h
  | cons x xs ih =>
    intro a b h
    simp only [findQuote] at h
    by_cases hx : x = dqChar
    · simp [hx] at h
      obtain ⟨h1, h2⟩ := h
      subst h2
      simp
    · simp only [hx, if_false, Option.map_eq_some'] at h
      obtain ⟨⟨p, q⟩, hpq, hab⟩ := h
      have hb : q = b := by
        have := congrArg Prod.snd hab
        simpa using this
      subst hb
      have := ih p q hpq
      simp only [List.length_cons]
      omega

/-- Operational model of the non-greedy DOUBLE_QUOTE_PATTERN substitution:
scan left to right, and at each ASCII double quote take the shortest span
up to the next quote and rewrite it with the two markers; a quote with no
later partner is left in place. -/
def convertSpansRec : List Char → List Char
  | [] => []
  | x :: xs =>
    if x = dqChar then
      match h : findQuote xs with
      | some (inner, rest) =>
        btChar :: btChar :: (inner ++ apChar :: apChar :: convertSpansRec rest)
      | none => x :: xs
    else x :: convertSpansRec xs
termination_by l => l.length
decreasing_by
  · have := findQuote_some_length xs inner rest h
    simp
    omega
  · simp

/-! ## scripts/generate_repo_markdown.py : binary detection -/

/-- Membership in the printable set of detect_binary: the seven control
codes 7, 8, 9, 10, 12, 13, 27 plus the byte range 0x20 to 0x7E. -/
def printableByte (b : Nat) : Bool :=
  b == 7 || b == 8 || b == 9 || b == 10 || b == 12 || b == 13 || b == 27 ||
  (0x20 ≤ b && b < 0x7F)

/-- detect_binary of generate_repo_markdown.py: empty data is not binary,
any zero byte makes it binary, otherwise the data is binary exactly when
the printable fraction is below 0.7 (the ratio comparison
printable_count / len < 0.7 is modelled exactly over the integers as
10 * printable_count < 7 * len). -/
def detect_binary (data : List Nat) : Bool :=
  if data = [] then false
  else if 0 ∈ data then true
  else decide (10 * data.countP printableByte < 7 * data.length)

/-! ## generate_repo_markdown.py : ignore pattern matching

fnmatch.fnmatch on a posix system compares the name against the pattern
with shell glob semantics: a star matches any character sequence, a
question mark any single character, and a bracket expression a character
class (with leading exclamation negation, a literal closing bracket when
it comes first, character ranges, and a lone opening bracket taken
literally when the expression is unclosed).  The whole pattern must match
the whole name. -/

/-- Scan a bracket expression body up to the closing bracket, returning
the body and the remaining pattern. -/
def scanClose : List Char → Option (List Char × List Char)
  | [] => none
  | c :: rest =>
    if c = ']' then some ([], rest)
    else (scanClose rest).map (fun r => (c :: r.1, r.2))

/-- Delimit a bracket expression after the opening bracket, as
fnmatch.translate does: a leading exclamation and a closing bracket right
after it are part of the body, and the body then extends to the next
closing bracket. -/
def bracketScan (l : List Char) : Option (List Char × List Char) :=
  match l with
  | [] => none
  | c :: rest =>
    if c = '!' then
      match rest with
      | [] => none
      | d :: rest2 =>
        if d = ']' then (scanClose rest2).map (fun r => ('!' :: ']' :: r.1, r.2))
        else (scanClose rest).map (fun r => ('!' :: r.1, r.2))
    else if c = ']' then (scanClose rest).map (fun r => (']' :: r.1, r.2))
    else scanClose (c :: rest)

/-- Members of a bracket expression body: singletons and ranges, with a
dash taken literally when it starts or ends the body. -/
def classMembers : List Char → List (Char × Char)
  | [] => []
  | a :: '-' :: b :: rest => (a, b) :: classMembers rest
  | a :: rest => (a, a) :: classMembers rest

/-- Whether a character is matched by a bracket expression body, with a
leading exclamation mark negating the class. -/
def bracketMatch (body : List Char) (c : Char) : Bool :=
  match body with
  | '!' :: rest => !((classMembers rest).any fun r => r.1 ≤ c && c ≤ r.2)
  | _ => (classMembers body).any fun r => r.1 ≤ c && c ≤ r.2

/-- fnmatch glob matching, pattern first: the whole string must be
matched by the whole pattern. -/
def fnmatchCore : List Char → List Char → Bool
  | [], s => s.isEmpty
  | '*' :: ps, s =>
    fnmatchCore ps s ||
      (match s with
       | [] => false
       | _ :: s2 => fnmatchCore ('*' :: ps) s2)
  | '?' :: ps, s =>
    (match s with
     | [] => false
     | _ :: s2 => fnmatchCore ps s2)
  | '[' :: ps, s =>
    (match s with
     | [] => false
     | c :: s2 =>
       (match bracketScan ps with
        | some (body, rest) => bracketMatch body c && fnmatchCore rest s2
        | none => (c == '[') && fnmatchCore ps s2))
  | p :: ps, s =>
    (match s with
     | [] => false
     | c :: s2 => (p == c) && fnmatchCore ps s2)
termination_by p s => (s.length, p.length)
decreasing_by
  · apply Prod.Lex.right
    simp only [List.length_cons]
    omega
  · apply Prod.Lex.left
    simp only [List.length_cons]
    omega
  · apply Prod.Lex.left
    simp only [List.length_cons]
    omega
  · apply Prod.Lex.left
    simp only [List.length_cons]
    omega
  · apply Prod.Lex.left
    simp only [List.length_cons]
    omega
  · apply Prod.Lex.left
    simp only [List.length_cons]
    omega

/-- fnmatch.fnmatch(name, pattern) on a posix system, where normcase is
the identity. -/
def fnmatchList (name pat : List Char) : Bool := fnmatchCore pat name

/-- The part of a string after the last occurrence of a character, the
whole string when the character does not occur. -/
def afterLast (c : Char) : List Char → List Char
  | [] => []
  | x :: xs =>
    if c ∈ xs then afterLast c xs
    else if x = c then xs
    else x :: afterLast c xs

/-- Base name of a posix relative path: the part after the last slash,
matching the name attribute of a pathlib path. -/
def pyBasename (rel : List Char) : List Char := afterLast '/' rel

/-- Python str.rstrip with the slash argument: removes every trailing
slash. -/
def stripTrailingSlashes (l : List Char) : List Char :=
  (l.reverse.dropWhile (fun c => c == '/')).reverse

/-- path_matches_gitignore of generate_repo_markdown.py, on the
root-relative posix path: each pattern is tried in order, a pattern with
a trailing slash matches when the path equals the stripped pattern or
extends it across a slash, a pattern with a star or question mark is
matched by fnmatch against the path and against the bare file name, and
any other pattern must equal the path or the bare file name. -/
def path_matches_gitignore (rel : List Char) (patterns : List (List Char)) : Bool :=
  patterns.any fun pat =>
    if pat.getLastD ' ' = '/' then
      rel == stripTrailingSlashes pat ||
        (stripTrailingSlashes pat ++ ['/']).isPrefixOf rel
    else if pat.contains '*' || pat.contains '?' then
      fnmatchList rel pat || fnmatchList (pyBasename rel) pat
    else
      rel == pat || pyBasename rel == pat

/-- The per-file exclusion test inside gather_files_by_walk of
generate_repo_markdown.py: a pattern with a trailing slash matches when
the stripped pattern is a bare string prefix of the path, and any other
pattern is matched by fnmatch against the path and against the bare file
name. -/
def walkSkip (rel : List Char) (patterns : List (List Char)) : Bool :=
  patterns.any fun pat =>
    if pat.getLastD ' ' = '/' then
      (stripTrailingSlashes pat).isPrefixOf rel
    else
      fnmatchList rel pat || fnmatchList (pyBasename rel) pat

/-! ## generate_repo_markdown.py : document assembly -/

/-- The fence language computation inside create_markdown: the last piece
of the full relative path split at every dot when the relative path
contains a dot, and the generic text tag otherwise. -/
def fence_lang (relative : List Char) : List Char :=
  if '.' ∈ relative then (pySplitChar '.' relative).getLastD []
  else ("text".toList)

/-- The language tag described by the specification sentence: the part of
the bare file name after its last dot, and the generic text tag when the
file name has no dot. -/
def fence_lang_claim (relative : List Char) : List Char :=
  if '.' ∈ pyBasename relative then afterLast '.' (pyBasename relative)
  else ("text".toList)

/-- Root-relative location of the copilot instructions file that
create_markdown force-includes in the tree and excludes from content. -/
def ciName : String := ".github/copilot-instructions.md"

/-- Resolved path of the copilot instructions file under a root. -/
def ciPath (root : String) : String := root ++ "/" ++ ciName

/-- Resolved path of the generator script under a root. -/
def genScriptPath (root : String) : String :=
  root ++ "/scripts/generate_repo_markdown.py"

/-- The tree file list computed by create_markdown: the discovered files,
with the copilot instructions file force-added when it exists on disk and
was not discovered, the generator script removed, and the output file
removed.  Paths are taken as already resolved strings. -/
def filesForTree (root : String) (files : List String) (ciExists : Bool)
    (outputPath : String) : List String :=
  let f0 := if ciExists && !(files.contains (ciPath root)) then
      files ++ [ciPath root] else files
  let f1 := f0.filter (fun f => f ≠ genScriptPath root)
  f1.filter (fun f => f ≠ outputPath)

/-- The content file list computed by create_markdown: the tree list with
the copilot instructions file removed. -/
def filesForContent (root : String) (files : List String) (ciExists : Bool)
    (outputPath : String) : List String :=
  (filesForTree root files ciExists outputPath).filter
    (fun f => f ≠ ciPath root)

/-! ## generate_repo_markdown.py : directory tree -/

/-- The nested dictionary built by build_tree: directory children keyed by
name, and the list under the files key. -/
inductive DirTree where
  | node (dirs : List (String × DirTree)) (files : List String) : DirTree

/-- The directory children of a tree node. -/
def dirsOf : DirTree → List (String × DirTree)
  | .node ds _ => ds

/-- The leaf file names of a tree node. -/
def filesOf : DirTree → List String
  | .node _ fs => fs

mutual
/-- One insertion step of build_tree: walk the leading path segments as
nested directory nodes, then append the final segment to the files list
of the reached node. -/
def insertPath : DirTree → List String → DirTree
  | t, [] => t
  | .node ds fs, [leaf] => .node ds (fs ++ [leaf])
  | .node ds fs, d :: e :: rest => .node (updateDir ds d (e :: rest)) fs
termination_by t p => (p.length, 0)

/-- Walk or create the directory entry with the given name, as the
setdefault call of build_tree does, preserving the insertion order of the
other entries. -/
def updateDir (ds : List (String × DirTree)) (d : String) (rest : List String) :
    List (String × DirTree) :=
  match ds with
  | [] => [(d, insertPath (.node [] []) rest)]
  | (k, t) :: tl =>
    if k = d then (k, insertPath t rest) :: tl
    else (k, t) :: updateDir tl d rest
termination_by (rest.length, ds.length + 1)
end

/-- build_tree of generate_repo_markdown.py, over the already relative
paths given as segment lists. -/
def build_tree (paths : List (List String)) : DirTree :=
  paths.foldl insertPath (.node [] [])

/-- Python sorted on strings: ascending lexicographic order of code
points, realized by insertion sort. -/
def pySorted (l : List String) : List String :=
  l.insertionSort (fun a b => a ≤ b)

/-- The entry sequence render_tree iterates over: the directory names in
sorted order, each flagged as a directory, then the file names in sorted
order. -/
def entriesOf (t : DirTree) : List (String × Bool) :=
  ((pySorted ((dirsOf t).map (fun p => p.1))).map (fun d => (d, true))) ++
    ((pySorted (filesOf t)).map (fun f => (f, false)))

theorem lookup_sizeOf_lt :
    ∀ (ds : List (String × DirTree)) (name : String) (child : DirTree),
      ds.lookup name = some child → sizeOf child < sizeOf ds := by
  intro ds
  induction ds with
  | nil => intro name child h; simp [List.lookup] at h
  | cons p tl ih =>
    intro name child h
    obtain ⟨k, t⟩ := p
    rw [List.lookup] at h
    cases hbeq : (name == k) with
    | true =>
      rw [hbeq] at h
      simp at h
      subst h
      simp only [List.cons.sizeOf_spec, Prod.mk.sizeOf_spec]
      omega
    | false =>
      rw [hbeq] at h
      simp at h
      have := ih name child h
      simp only [List.cons.sizeOf_spec]
      omega

mutual
/-- render_tree of generate_repo_markdown.py: renders the entries of the
node with box drawing connectors and recursive indentation. -/
def render_tree (t : DirTree) (pre : String) : List String :=
  renderLoop t pre (entriesOf t)
termination_by (sizeOf t, (entriesOf t).length + 1)
decreasing_by
  apply Prod.Lex.right
  omega

/-- The enumerate loop inside render_tree: the last entry gets the corner
connector and blank continuation padding, every other entry gets the tee
connector and a vertical bar continuation; directory entries recurse into
the subtree found by name. -/
def renderLoop (t : DirTree) (pre : String) : List (String × Bool) → List String
  | [] => []
  | (name, isDir) :: rest =>
    ((pre ++ (if rest.isEmpty then "└──" else "├──") ++ " " ++ name) ::
      ((if isDir then
          (match hl : (dirsOf t).lookup name with
           | some child =>
             render_tree child
               (pre ++ (if rest.isEmpty then "    " else "│   "))
           | none => [])
        else []) ++ renderLoop t pre rest))
termination_by l => (sizeOf t, l.length)
decreasing_by
  · simp_wf
    apply Prod.Lex.left
    have h1 := lookup_sizeOf_lt (dirsOf t) name child hl
    have h2 : sizeOf (dirsOf t) < sizeOf t := by
      cases t with
      | node ds fs =>
        simp only [dirsOf, DirTree.node.sizeOf_spec]
        omega
    omega
  · simp_wf
    apply Prod.Lex.right
    omega
end

/-! ## generate_repo_markdown.py : file content -/

/-- Whether a byte is a UTF-8 continuation byte. -/
def isCont (b : Nat) : Bool := 0x80 ≤ b && b < 0xC0

/-- The Unicode replacement character U+FFFD. -/
def fffdChar : Char := Char.ofNat 0xFFFD

/-- One step of UTF-8 decoding with the replace error handler: consume
the bytes of one well-formed sequence starting at the given lead byte, or
produce a replacement character for a maximal invalid part, and return
the decoded character together with the unconsumed rest. -/
def utf8Step (b : Nat) (rest : List Nat) : Char × List Nat :=
  if b < 0x80 then (Char.ofNat b, rest)
  else if b < 0xC2 then (fffdChar, rest)
  else if b < 0xE0 then
    match rest with
    | [] => (fffdChar, [])
    | b2 :: rest2 =>
      if isCont b2 then (Char.ofNat (((b - 0xC0) * 64) + (b2 - 0x80)), rest2)
      else (fffdChar, b2 :: rest2)
  else if b < 0xF0 then
    match rest with
    | [] => (fffdChar, [])
    | b2 :: rest2 =>
      if isCont b2 && (decide (b ≠ 0xE0) || decide (0xA0 ≤ b2)) &&
          (decide (b ≠ 0xED) || decide (b2 < 0xA0)) then
        match rest2 with
        | [] => (fffdChar, [])
        | b3 :: rest3 =>
          if isCont b3 then
            (Char.ofNat (((b - 0xE0) * 4096) + ((b2 - 0x80) * 64) + (b3 - 0x80)),
              rest3)
          else (fffdChar, b3 :: rest3)
      else (fffdChar, b2 :: rest2)
  else if b < 0xF5 then
    match rest with
    | [] => (fffdChar, [])
    | b2 :: rest2 =>
      if isCont b2 && (decide (b ≠ 0xF0) || decide (0x90 ≤ b2)) &&
          (decide (b ≠ 0xF4) || decide (b2 < 0x90)) then
        match rest2 with
        | [] => (fffdChar, [])
        | b3 :: rest3 =>
          if isCont b3 then
            match rest3 with
            | [] => (fffdChar, [])
            | b4 :: rest4 =>
              if isCont b4 then
                (Char.ofNat (((b - 0xF0) * 262144) + ((b2 - 0x80) * 4096) +
                    ((b3 - 0x80) * 64) + (b4 - 0x80)), rest4)
              else (fffdChar, b4 :: rest4)
          else (fffdChar, b3 :: rest3)
      else (fffdChar, b2 :: rest2)
  else (fffdChar, rest)

theorem utf8Step_length (b : Nat) (rest : List Nat) :
    (utf8Step b rest).2.length ≤ rest.length := by
  unfold utf8Step
  repeat' split
  all_goals simp_all
  all_goals omega

/-- UTF-8 decoding with the replace error handler, as bytes.decode with
errors replace does: invalid or truncated sequences yield replacement
characters instead of failing. -/
def utf8DecodeReplace (l : List Nat) : List Char :=
  match l with
  | [] => []
  | b :: rest => (utf8Step b rest).1 :: utf8DecodeReplace (utf8Step b rest).2
termination_by l.length
decreasing_by
  simp only [List.length_cons]
  exact Nat.lt_succ_of_le (utf8Step_length _ _)

/-- Python str.isspace character set: the ASCII whitespace control codes,
the field separators 0x1C to 0x1F, and the Unicode space characters. -/
def pyIsSpace (c : Char) : Bool :=
  let n := c.toNat
  (9 ≤ n && n ≤ 13) || n == 28 || n == 29 || n == 30 || n == 31 || n == 32 ||
  n == 0x85 || n == 0xA0 || n == 0x1680 || (0x2000 ≤ n && n ≤ 0x200A) ||
  n == 0x2028 || n == 0x2029 || n == 0x202F || n == 0x205F || n == 0x3000

/-- Python str.rstrip with no argument: removes every trailing whitespace
character. -/
def pyRstrip (l : List Char) : List Char :=
  (l.reverse.dropWhile pyIsSpace).reverse

/-- The outcome of reading a file in read_file_for_markdown: the file can
be missing, reading can fail with an error rendered as text, or the raw
bytes are obtained. -/
inductive FileReadResult where
  | missing : FileReadResult
  | readError (msg : List Char) : FileReadResult
  | ok (data : List Nat) : FileReadResult

/-- read_file_for_markdown of generate_repo_markdown.py over the explicit
read outcome: a missing file and a read error produce placeholder text,
binary data produces a placeholder with the byte count, and text data is
decoded with replacement, stripped of trailing whitespace and terminated
with exactly one newline. -/
def read_file_for_markdown : FileReadResult → List Char
  | .missing => ("[missing file: skipped]".toList)
  | .readError msg => ("[error reading file: ".toList) ++ msg ++ ("]".toList)
  | .ok data =>
    if detect_binary data then
      ("[binary file omitted – ".toList) ++ (toString data.length).toList ++
        (" bytes]".toList)
    else pyRstrip (utf8DecodeReplace data) ++ [nlChar]

/-! ## Theorems -/

/-- Claim C2: detect_binary returns false for the empty buffer, true
whenever a null byte occurs, and otherwise true exactly when the fraction
of allow-listed bytes is strictly below seven tenths; the ten-byte zero
buffer is binary and the hundred-byte letter buffer is not. -/
theorem detect_binary_spec (data : List Nat) :
    detect_binary [] = false
    ∧ (0 ∈ data → detect_binary data = true)
    ∧ (data ≠ [] → 0 ∉ data →
        (detect_binary data = true ↔
          10 * data.countP printableByte < 7 * data.length))
    ∧ detect_binary (List.replicate 10 0) = true
    ∧ detect_binary (List.replicate 100 65) = false := by
  refine ⟨by decide, ?_, ?_, by decide, by decide⟩
  · intro h
    have hne : data ≠ [] := List.ne_nil_of_mem h
    simp [detect_binary, hne, h]
  · intro h1 h2
    simp [detect_binary, h1, h2]

/-- Witness for detect_binary_spec at concrete buffers. -/
theorem detect_binary_spec_inst :
    detect_binary [0, 65] = true
    ∧ (detect_binary [65, 1, 1] = true ↔
        10 * List.countP printableByte [65, 1, 1] < 7 * List.length [65, 1, 1]) :=
  ⟨(detect_binary_spec [0, 65]).2.1 (by decide),
   (detect_binary_spec [65, 1, 1]).2.2.1 (by decide) (by decide)⟩

/-- Claim C5: the output file path never survives into the tree list nor
into the content list computed by create_markdown, whatever the
discovered files, the root and the copilot file state are; the document
sections are generated solely from these two lists. -/
theorem output_self_exclusion (root : String) (files : List String)
    (ciExists : Bool) (outputPath : String) :
    outputPath ∉ filesForTree root files ciExists outputPath
    ∧ outputPath ∉ filesForContent root files ciExists outputPath := by
  constructor
  · intro hmem
    simp only [filesForTree, List.mem_filter] at hmem
    simp at hmem
  · intro hmem
    simp only [filesForContent, filesForTree, List.mem_filter] at hmem
    simp at hmem

theorem isPrefixOf_refl_chars (l : List Char) : l.isPrefixOf l = true := by
  induction l with
  | nil => rfl
  | cons x xs ih => simp [List.isPrefixOf, ih]

theorem isPrefixOf_of_append_isPrefixOf (a b rel : List Char)
    (h : (a ++ b).isPrefixOf rel = true) : a.isPrefixOf rel = true := by
  induction a generalizing rel with
  | nil => cases rel <;> simp [List.isPrefixOf]
  | cons x xs ih =>
    cases rel with
    | nil => simp [List.isPrefixOf] at h
    | cons y ys =>
      simp only [List.cons_append, List.isPrefixOf, Bool.and_eq_true] at h ⊢
      exact ⟨h.1, ih ys h.2⟩

/-- Claim C3: a pattern with a trailing separator matches, in
path_matches_gitignore, exactly the paths equal to the pattern with its
trailing separators removed or beginning with that prefix followed by a
separator; in particular build/ matches build/out.o and build but not
buildx/out.o. -/
theorem directory_pattern_spec (rel pat : List Char)
    (h : pat.getLastD ' ' = '/') :
    (path_matches_gitignore rel [pat] = true ↔
      (rel = stripTrailingSlashes pat ∨
        (stripTrailingSlashes pat ++ ['/']).isPrefixOf rel = true))
    ∧ path_matches_gitignore ("build/out.o".toList) [("build/".toList)] = true
    ∧ path_matches_gitignore ("build".toList) [("build/".toList)] = true
    ∧ path_matches_gitignore ("buildx/out.o".toList) [("build/".toList)] = false := by
  refine ⟨?_, by decide, by decide, by decide⟩
  simp only [path_matches_gitignore, List.any_cons, List.any_nil, Bool.or_false]
  rw [if_pos h]
  simp

/-- Witness for directory_pattern_spec at the pattern build/ and the path
build/out.o. -/
theorem directory_pattern_spec_inst :
    (path_matches_gitignore ("build/out.o".toList) [("build/".toList)] = true ↔
      (("build/out.o".toList) = stripTrailingSlashes ("build/".toList) ∨
        (stripTrailingSlashes ("build/".toList) ++ ['/']).isPrefixOf
          ("build/out.o".toList) = true))
    ∧ path_matches_gitignore ("build/out.o".toList) [("build/".toList)] = true
    ∧ path_matches_gitignore ("build".toList) [("build/".toList)] = true
    ∧ path_matches_gitignore ("buildx/out.o".toList) [("build/".toList)] = false :=
  directory_pattern_spec ("build/out.o".toList) ("build/".toList) (by decide)

theorem pySplit_ne_nil (sep : Char) (l : List Char) : pySplitChar sep l ≠ [] := by
  cases l with
  | nil => simp [pySplitChar]
  | cons x xs =>
    simp only [pySplitChar]
    by_cases hx : x = sep
    · simp [hx]
    · simp only [hx, if_false]
      cases pySplitChar sep xs <;> simp

theorem pySplit_length (sep : Char) (l : List Char) :
    (pySplitChar sep l).length = l.count sep + 1 := by
  induction l with
  | nil => simp [pySplitChar]
  | cons x xs ih =>
    simp only [pySplitChar]
    by_cases hx : x = sep
    · simp [hx, List.count_cons, ih]
    · simp only [hx, if_false]
      cases hs : pySplitChar sep xs with
      | nil => exact absurd hs (pySplit_ne_nil sep xs)
      | cons g gs =>
        rw [hs] at ih
        simp only [List.length_cons] at ih ⊢
        have hne : (x == sep) = false := by simp [hx]
        simp [List.count_cons, hne]
        omega

theorem not_mem_pySplit (sep : Char) (l : List Char) (h : sep ∉ l) :
    pySplitChar sep l = [l] := by
  induction l with
  | nil => simp [pySplitChar]
  | cons x xs ih =>
    have hx : x ≠ sep := fun hc => h (hc ▸ List.mem_cons_self x xs)
    have hxs : sep ∉ xs := fun hc => h (List.mem_cons_of_mem x hc)
    simp only [pySplitChar, Ne.symm hx]
    rw [ih hxs]
    simp [hx]

theorem afterLast_not_mem (sep : Char) (l : List Char) (h : sep ∉ l) :
    afterLast sep l = l := by
  induction l with
  | nil => rfl
  | cons x xs ih =>
    have hx : x ≠ sep := fun hc => h (hc ▸ List.mem_cons_self x xs)
    have hxs : sep ∉ xs := fun hc => h (List.mem_cons_of_mem x hc)
    simp only [afterLast, hxs, if_false, hx, ih hxs]

theorem getLastD_irrel {α : Type} (l : List α) (d e : α) (h : l ≠ []) :
    l.getLastD d = l.getLastD e := by
  cases l with
  | nil => exact absurd rfl h
  | cons x xs => rw [List.getLastD_cons, List.getLastD_cons]

theorem getLastD_pySplit (sep : Char) (l : List Char) :
    (pySplitChar sep l).getLastD [] = afterLast sep l := by
  induction l with
  | nil => simp [pySplitChar, afterLast]
  | cons x xs ih =>
    simp only [pySplitChar, afterLast]
    by_cases hx : x = sep
    · subst hx
      simp only [if_pos rfl]
      by_cases hmem : x ∈ xs
      · simp only [hmem, if_true, List.getLastD_cons]
        exact ih
      · simp only [hmem, if_false, if_pos rfl, List.getLastD_cons]
        rw [not_mem_pySplit x xs hmem]
        simp [List.getLastD_cons]
    · simp only [hx, if_false]
      cases hs : pySplitChar sep xs with
      | nil => exact absurd hs (pySplit_ne_nil sep xs)
      | cons g gs =>
        by_cases hmem : sep ∈ xs
        · have hlen : 0 < gs.length := by
            have := pySplit_length sep xs
            rw [hs] at this
            simp only [List.length_cons] at this
            have hcnt : 0 < xs.count sep := List.count_pos_iff.mpr hmem
            omega
          cases gs with
          | nil => simp at hlen
          | cons g2 gs2 =>
            simp only [hmem, if_true]
            rw [hs] at ih
            simp only [List.getLastD_cons] at ih ⊢
            exact ih
        · have hsp := not_mem_pySplit sep xs hmem
          rw [hsp] at hs
          injection hs with h1 h2
          subst h1
          subst h2
          simp only [hmem, if_false, hx, List.getLastD_cons, List.getLastD_nil]
          rw [afterLast_not_mem sep xs hmem]

/-- Counterexample to claim C4: for the relative path dir.v1/Makefile the
file name has no dot, so the claimed tag is the generic text tag, but
create_markdown computes the tag from the whole relative path and yields
v1/Makefile. -/
theorem fence_lang_cex :
    fence_lang ("dir.v1/Makefile".toList) = ("v1/Makefile".toList)
    ∧ fence_lang_claim ("dir.v1/Makefile".toList) = ("text".toList)
    ∧ fence_lang ("dir.v1/Makefile".toList) ≠
        fence_lang_claim ("dir.v1/Makefile".toList) :=
  ⟨by decide, by decide, by decide⟩

/-- Claim C4 as amended: the fence language tag is the part of the whole
relative path after its last dot whenever the relative path contains a
dot anywhere, including in a directory component, and the generic text
tag only when the whole path is dot free. -/
theorem fence_lang_amended (relative : List Char) :
    fence_lang relative =
      if '.' ∈ relative then afterLast '.' relative else ("text".toList) := by
  unfold fence_lang
  by_cases h : '.' ∈ relative
  · simp only [h, if_true]
    exact getLastD_pySplit '.' relative
  · simp [h]

theorem fnmatchCore_self (pat : List Char)
    (h1 : ('*' : Char) ∉ pat) (h2 : ('?' : Char) ∉ pat) (h3 : ('[' : Char) ∉ pat) :
    fnmatchCore pat pat = true := by
  induction pat with
  | nil => simp [fnmatchCore]
  | cons c ps ih =>
    have hc1 : c ≠ '*' := fun hc => h1 (hc ▸ List.mem_cons_self c ps)
    have hc2 : c ≠ '?' := fun hc => h2 (hc ▸ List.mem_cons_self c ps)
    have hc3 : c ≠ '[' := fun hc => h3 (hc ▸ List.mem_cons_self c ps)
    rw [fnmatchCore.eq_def]
    split
    · rename_i heq
      exact absurd heq (by simp)
    · rename_i ps2 _ heq
      injection heq with ha hb
      exact absurd ha hc1
    · rename_i ps2 _ heq
      injection heq with ha hb
      exact absurd ha hc2
    · rename_i ps2 _ heq
      injection heq with ha hb
      exact absurd ha hc3
    · rename_i p2 ps2 s2 heq1 heq2 heq3 heq4
      injection heq4 with ha hb
      subst ha
      subst hb
      have t1 : ('*' : Char) ∉ ps := fun hm => h1 (List.mem_cons_of_mem _ hm)
      have t2 : ('?' : Char) ∉ ps := fun hm => h2 (List.mem_cons_of_mem _ hm)
      have t3 : ('[' : Char) ∉ ps := fun hm => h3 (List.mem_cons_of_mem _ hm)
      simp [ih t1 t2 t3]

/-- Counterexample to claim C1: with the single ignore pattern build/
and the path buildx/out.o, the filesystem walk excludes the path because
its directory check is a bare string prefix test, while
path_matches_gitignore does not match it, so the two filters disagree. -/
theorem gather_walk_vs_matcher_cex :
    walkSkip ("buildx/out.o".toList) [("build/".toList)] = true
    ∧ path_matches_gitignore ("buildx/out.o".toList) [("build/".toList)] = false :=
  ⟨by decide, by decide⟩

/-- Claim C1 as amended: on pattern lists whose literal patterns carry no
opening bracket, every path matched by path_matches_gitignore is also
excluded by the walk of gather_files_by_walk, because the walk treats a
directory pattern as a bare prefix test, which is weaker than the
boundary test of the matcher, treats glob patterns identically, and
checks literal patterns by fnmatch, which bracket-free literals satisfy
whenever equality holds; the converse containment fails, as the
counterexample shows. -/
theorem gather_walk_vs_matcher_amended (rel : List Char)
    (patterns : List (List Char))
    (h : ∀ pat ∈ patterns, pat.getLastD ' ' ≠ '/' →
      pat.contains '*' = false → pat.contains '?' = false → ('[' : Char) ∉ pat)
    (hm : path_matches_gitignore rel patterns = true) :
    walkSkip rel patterns = true := by
  simp only [path_matches_gitignore, List.any_eq_true] at hm
  obtain ⟨pat, hmem, hpat⟩ := hm
  simp only [walkSkip, List.any_eq_true]
  refine ⟨pat, hmem, ?_⟩
  by_cases hdir : pat.getLastD ' ' = '/'
  · rw [if_pos hdir] at hpat ⊢
    rw [Bool.or_eq_true] at hpat
    cases hpat with
    | inl hr =>
      have : rel = stripTrailingSlashes pat := by
        exact beq_iff_eq.mp hr
      rw [this]
      exact isPrefixOf_refl_chars _
    | inr hpre =>
      exact isPrefixOf_of_append_isPrefixOf _ _ _ hpre
  · rw [if_neg hdir] at hpat ⊢
    by_cases hglob : (pat.contains '*' || pat.contains '?') = true
    · rw [if_pos hglob] at hpat
      exact hpat
    · rw [if_neg hglob] at hpat
      have hsplit : pat.contains '*' = false ∧ pat.contains '?' = false := by
        constructor <;> (cases hx : pat.contains '*' <;> cases hy : pat.contains '?' <;>
          simp_all)
      have hnb : ('[' : Char) ∉ pat := h pat hmem hdir hsplit.1 hsplit.2
      have hns : ('*' : Char) ∉ pat := by
        intro hmem2
        have := hsplit.1
        simp [hmem2] at this
      have hnq : ('?' : Char) ∉ pat := by
        intro hmem2
        have := hsplit.2
        simp [hmem2] at this
      have hself := fnmatchCore_self pat hns hnq hnb
      rw [Bool.or_eq_true] at hpat
      cases hpat with
      | inl hr =>
        have heq : rel = pat := beq_iff_eq.mp hr
        rw [Bool.or_eq_true]
        left
        rw [fnmatchList, heq]
        exact hself
      | inr hb =>
        have heq : pyBasename rel = pat := beq_iff_eq.mp hb
        rw [Bool.or_eq_true]
        right
        rw [fnmatchList, heq]
        exact hself

/-- Witness for gather_walk_vs_matcher_amended at the pattern list with
the single directory pattern build/ and the path build/out.o. -/
theorem gather_walk_vs_matcher_inst :
    walkSkip ("build/out.o".toList) [("build/".toList)] = true :=
  gather_walk_vs_matcher_amended ("build/out.o".toList) [("build/".toList)]
    (by decide) (by decide)

theorem dropWhile_head_false (p : Char → Bool) :
    ∀ (l : List Char) (c : Char) (rest : List Char),
      l.dropWhile p = c :: rest → p c = false := by
  intro l
  induction l with
  | nil => intro c rest h; simp [List.dropWhile] at h
  | cons x xs ih =>
    intro c rest h
    rw [List.dropWhile_cons] at h
    by_cases hx : p x = true
    · rw [if_pos hx] at h
      exact ih c rest h
    · rw [if_neg hx] at h
      injection h with h1 h2
      subst h1
      exact Bool.not_eq_true _ ▸ hx

theorem pyRstrip_trailing (l : List Char) :
    pyRstrip l = [] ∨ pyIsSpace ((pyRstrip l).getLastD ' ') = false := by
  cases hd : l.reverse.dropWhile pyIsSpace with
  | nil => left; simp [pyRstrip, hd]
  | cons c rest =>
    right
    simp only [pyRstrip, hd]
    have hlast : (c :: rest).reverse.getLastD ' ' = c := by
      rw [List.reverse_cons]
      exact List.getLastD_concat _ _ _
    rw [hlast]
    exact dropWhile_head_false pyIsSpace l.reverse c rest hd

/-- Claim C9: read_file_for_markdown is a total function of the explicit
read outcome: a missing file yields the skip placeholder, a read error
yields a placeholder naming the failure, binary bytes yield a placeholder
with the byte count, and any other bytes yield the replacement-decoded
text with trailing whitespace removed and exactly one final newline — the
last character is the newline and the character before it, when there is
one, is not whitespace. -/
theorem read_file_for_markdown_spec (e : List Char) (data : List Nat) :
    read_file_for_markdown .missing = ("[missing file: skipped]".toList)
    ∧ read_file_for_markdown (.readError e) =
        ("[error reading file: ".toList) ++ e ++ ("]".toList)
    ∧ (detect_binary data = true →
        read_file_for_markdown (.ok data) =
          ("[binary file omitted – ".toList) ++ (toString data.length).toList ++
            (" bytes]".toList))
    ∧ (detect_binary data = false →
        read_file_for_markdown (.ok data) =
          pyRstrip (utf8DecodeReplace data) ++ [nlChar]
        ∧ (read_file_for_markdown (.ok data)).getLastD ' ' = nlChar
        ∧ ((read_file_for_markdown (.ok data)).dropLast = [] ∨
            pyIsSpace (((read_file_for_markdown (.ok data)).dropLast).getLastD ' ')
              = false)) := by
  refine ⟨rfl, rfl, ?_, ?_⟩
  · intro h
    simp [read_file_for_markdown, h]
  · intro h
    have he : read_file_for_markdown (.ok data) =
        pyRstrip (utf8DecodeReplace data) ++ [nlChar] := by
      simp [read_file_for_markdown, h]
    refine ⟨he, ?_, ?_⟩
    · rw [he]
      exact List.getLastD_concat _ _ _
    · rw [he, List.dropLast_concat]
      exact pyRstrip_trailing _

/-- Witness for read_file_for_markdown_spec: a one-byte binary buffer and
a small text buffer with trailing whitespace. -/
theorem read_file_for_markdown_spec_inst :
    read_file_for_markdown (.ok [0]) =
      ("[binary file omitted – ".toList) ++ (toString (List.length [0])).toList ++
        (" bytes]".toList)
    ∧ (read_file_for_markdown (.ok [104, 105, 32, 10]) =
        pyRstrip (utf8DecodeReplace [104, 105, 32, 10]) ++ [nlChar]
      ∧ (read_file_for_markdown (.ok [104, 105, 32, 10])).getLastD ' ' = nlChar
      ∧ ((read_file_for_markdown (.ok [104, 105, 32, 10])).dropLast = [] ∨
          pyIsSpace (((read_file_for_markdown
            (.ok [104, 105, 32, 10])).dropLast).getLastD ' ') = false)) :=
  ⟨(read_file_for_markdown_spec [] [0]).2.2.1 (by decide),
   (read_file_for_markdown_spec [] [104, 105, 32, 10]).2.2.2 (by decide)⟩

theorem convertSpansRec_nil : convertSpansRec [] = [] := by
  rw [convertSpansRec]

theorem convertSpansRec_cons_ne (x : Char) (xs : List Char) (hx : x ≠ dqChar) :
    convertSpansRec (x :: xs) = x :: convertSpansRec xs := by
  rw [convertSpansRec.eq_def]
  simp [hx]

theorem convertSpansRec_dq_none (xs : List Char) (hq : findQuote xs = none) :
    convertSpansRec (dqChar :: xs) = dqChar :: xs := by
  rw [convertSpansRec.eq_def]
  simp only [eq_self_iff_true, if_true]
  split
  · rename_i inner2 rest2 heq
    rw [hq] at heq
    exact absurd heq (by simp)
  · rfl

theorem convertSpansRec_dq_some (xs inner rest : List Char)
    (hq : findQuote xs = some (inner, rest)) :
    convertSpansRec (dqChar :: xs) =
      btChar :: btChar :: (inner ++ apChar :: apChar :: convertSpansRec rest) := by
  rw [convertSpansRec.eq_def]
  simp only [eq_self_iff_true, if_true]
  split
  · rename_i inner2 rest2 heq
    rw [hq] at heq
    injection heq with h1
    injection h1 with h2 h3
    subst h2
    subst h3
    rfl
  · rename_i heq
    rw [hq] at heq
    exact absurd heq (by simp)

theorem findQuote_none_not_mem (l : List Char) (h : findQuote l = none) :
    dqChar ∉ l := by
  induction l with
  | nil => simp
  | cons x xs ih =>
    simp only [findQuote] at h
    by_cases hx : x = dqChar
    · simp [hx] at h
    · simp only [hx, if_false, Option.map_eq_none'] at h
      intro hmem
      cases List.mem_cons.mp hmem with
      | inl h1 => exact hx h1.symm
      | inr h2 => exact ih h h2

theorem findQuote_some_decomp :
    ∀ (l a b : List Char), findQuote l = some (a, b) →
      l = a ++ dqChar :: b ∧ dqChar ∉ a := by
  intro l
  induction l with
  | nil => intro a b h; simp [findQuote] at h
  | cons x xs ih =>
    intro a b h
    simp only [findQuote] at h
    by_cases hx : x = dqChar
    · subst hx
      simp only [eq_self_iff_true, if_true, Option.some_inj] at h
      injection h with h1 h2
      subst h1
      subst h2
      exact ⟨rfl, by simp⟩
    · simp only [hx, if_false, Option.map_eq_some'] at h
      obtain ⟨⟨p, q⟩, hpq, hab⟩ := h
      injection hab with h1 h2
      subst h1
      subst h2
      obtain ⟨hd, hn⟩ := ih p q hpq
      constructor
      · rw [hd]
        simp
      · intro hmem
        cases List.mem_cons.mp hmem with
        | inl h1 => exact hx h1.symm
        | inr h2 => exact hn h2

theorem pySplit_append_sep (sep : Char) :
    ∀ (a b : List Char), sep ∉ a →
      pySplitChar sep (a ++ sep :: b) = a :: pySplitChar sep b := by
  intro a
  induction a with
  | nil =>
    intro b h
    simp [pySplitChar]
  | cons x xs ih =>
    intro b h
    have hx : x ≠ sep := fun hc => h (hc ▸ List.mem_cons_self x xs)
    have hxs : sep ∉ xs := fun hc => h (List.mem_cons_of_mem x hc)
    simp only [List.cons_append, pySplitChar, Ne.symm hx, hx, if_false]
    rw [show xs.append (sep :: b) = xs ++ sep :: b from rfl, ih b hxs]

theorem join_cons_head (x : Char) (g : List Char) (gs : List (List Char)) :
    joinConverted ((x :: g) :: gs) = x :: joinConverted (g :: gs) := by
  match gs with
  | [] => rfl
  | [q] => simp [joinConverted]
  | q :: r :: rest => simp [joinConverted]

theorem conv_eq_aux :
    ∀ (n : Nat) (s : List Char), s.length ≤ n →
      convertSpansRec s = joinConverted (pySplitChar dqChar s) := by
  intro n
  induction n with
  | zero =>
    intro s hs
    have hnil : s = [] := by
      cases s with
      | nil => rfl
      | cons x xs => simp at hs
    subst hnil
    rw [convertSpansRec_nil]
    simp [pySplitChar, joinConverted]
  | succ n ih =>
    intro s hs
    cases s with
    | nil =>
      rw [convertSpansRec_nil]
      simp [pySplitChar, joinConverted]
    | cons x xs =>
      by_cases hx : x = dqChar
      · subst hx
        cases hq : findQuote xs with
        | none =>
          rw [convertSpansRec_dq_none xs hq]
          have hnm := findQuote_none_not_mem xs hq
          have h1 : pySplitChar dqChar (dqChar :: xs) = [] :: pySplitChar dqChar xs := by
            simp [pySplitChar]
          rw [h1, not_mem_pySplit dqChar xs hnm]
          simp [joinConverted]
        | some r =>
          obtain ⟨inner, rest⟩ := r
          obtain ⟨hdecomp, hnin⟩ := findQuote_some_decomp xs inner rest hq
          rw [convertSpansRec_dq_some xs inner rest hq]
          have hlt := findQuote_some_length xs inner rest hq
          have hrest : convertSpansRec rest = joinConverted (pySplitChar dqChar rest) := by
            apply ih
            simp only [List.length_cons] at hs
            omega
          rw [hrest]
          have h1 : pySplitChar dqChar (dqChar :: xs) = [] :: pySplitChar dqChar xs := by
            simp [pySplitChar]
          have h2 : pySplitChar dqChar xs = inner :: pySplitChar dqChar rest := by
            rw [hdecomp]
            exact pySplit_append_sep dqChar inner rest hnin
          rw [h1, h2]
          cases hsp : pySplitChar dqChar rest with
          | nil => exact absurd hsp (pySplit_ne_nil _ _)
          | cons g gs =>
            simp [joinConverted]
      · rw [convertSpansRec_cons_ne x xs hx]
        have hxs : convertSpansRec xs = joinConverted (pySplitChar dqChar xs) := by
          apply ih
          simp only [List.length_cons] at hs
          omega
        rw [hxs]
        cases hsp : pySplitChar dqChar xs with
        | nil => exact absurd hsp (pySplit_ne_nil _ _)
        | cons g gs =>
          have h1 : pySplitChar dqChar (x :: xs) = (x :: g) :: gs := by
            simp only [pySplitChar, hx, if_false, hsp]
          rw [h1, join_cons_head]

theorem conv_eq (s : List Char) :
    convertSpansRec s = joinConverted (pySplitChar dqChar s) :=
  conv_eq_aux s.length s (Nat.le_refl _)

/-- Claim C6: normalize_text first maps the four smart double quote code
points to the ASCII double quote and the four smart single quote code
points to the ASCII apostrophe, leaving every other character unchanged,
and then performs the non-greedy span rewriting modelled operationally by
convertSpansRec, which puts two backticks before each span and two
apostrophes after it; the quoted greeting example rewrites as stated. -/
theorem normalize_text_spec :
    (∀ s : List Char, normalize_text s = convertSpansRec (s.map replaceSmart))
    ∧ (∀ c : Char, smartDouble c = false → smartSingle c = false →
        replaceSmart c = c)
    ∧ replaceSmart (Char.ofNat 0x201C) = dqChar
    ∧ replaceSmart (Char.ofNat 0x201D) = dqChar
    ∧ replaceSmart (Char.ofNat 0x201E) = dqChar
    ∧ replaceSmart (Char.ofNat 0x201F) = dqChar
    ∧ replaceSmart (Char.ofNat 0x2018) = apChar
    ∧ replaceSmart (Char.ofNat 0x2019) = apChar
    ∧ replaceSmart (Char.ofNat 0x201A) = apChar
    ∧ replaceSmart (Char.ofNat 0x201B) = apChar
    ∧ normalize_text (("He said ".toList) ++ dqChar :: ("hi".toList) ++ [dqChar]) =
        ("He said ".toList) ++ btChar :: btChar :: ("hi".toList) ++
          [apChar, apChar] := by
  refine ⟨?_, ?_, by decide, by decide, by decide, by decide, by decide,
    by decide, by decide, by decide, by decide⟩
  · intro s
    rw [normalize_text, conv_eq]
  · intro c h1 h2
    simp [replaceSmart, h1, h2]

/-- Witness for normalize_text_spec: a plain letter is kept unchanged by
the smart quote substitutions. -/
theorem normalize_text_spec_inst :
    smartDouble 'x' = false ∧ smartSingle 'x' = false ∧ replaceSmart 'x' = 'x' :=
  ⟨by decide, by decide, normalize_text_spec.2.1 'x' (by decide) (by decide)⟩

theorem map_replaceSmart_of_plain (s : List Char)
    (h : ∀ c ∈ s, smartDouble c = false ∧ smartSingle c = false) :
    s.map replaceSmart = s := by
  induction s with
  | nil => rfl
  | cons x xs ih =>
    have hx := h x (List.mem_cons_self x xs)
    simp only [List.map_cons]
    rw [ih (fun c hc => h c (List.mem_cons_of_mem x hc))]
    simp [replaceSmart, hx.1, hx.2]

/-- Claim C7: on strings with no ASCII double quote and none of the smart
quote code points, normalize_text is the identity, and applying it twice
agrees with applying it once. -/
theorem normalize_text_noop (s : List Char)
    (h1 : dqChar ∉ s)
    (h2 : ∀ c ∈ s, smartDouble c = false ∧ smartSingle c = false) :
    normalize_text s = s
    ∧ normalize_text (normalize_text s) = normalize_text s := by
  have hone : normalize_text s = s := by
    rw [normalize_text, map_replaceSmart_of_plain s h2, not_mem_pySplit dqChar s h1]
    simp [joinConverted]
  exact ⟨hone, by rw [hone, hone]⟩

/-- Witness for normalize_text_noop on a plain word. -/
theorem normalize_text_noop_inst :
    normalize_text ("hello".toList) = ("hello".toList)
    ∧ normalize_text (normalize_text ("hello".toList)) =
        normalize_text ("hello".toList) :=
  normalize_text_noop ("hello".toList) (by decide) (by decide)

theorem replaceSmart_plain (c : Char) :
    smartDouble (replaceSmart c) = false ∧ smartSingle (replaceSmart c) = false := by
  unfold replaceSmart
  by_cases h1 : smartDouble c = true
  · rw [if_pos h1]
    exact ⟨by decide, by decide⟩
  · rw [if_neg h1]
    by_cases h2 : smartSingle c = true
    · rw [if_pos h2]
      exact ⟨by decide, by decide⟩
    · rw [if_neg h2]
      exact ⟨by simpa using h1, by simpa using h2⟩

theorem mem_pySplit_mem (sep : Char) :
    ∀ (l p : List Char), p ∈ pySplitChar sep l → ∀ c ∈ p, c ∈ l := by
  intro l
  induction l with
  | nil =>
    intro p hp c hc
    simp only [pySplitChar, List.mem_singleton] at hp
    subst hp
    simp at hc
  | cons x xs ih =>
    intro p hp c hc
    simp only [pySplitChar] at hp
    by_cases hx : x = sep
    · rw [if_pos hx] at hp
      cases List.mem_cons.mp hp with
      | inl h1 =>
        subst h1
        simp at hc
      | inr h2 =>
        exact List.mem_cons_of_mem x (ih p h2 c hc)
    · rw [if_neg hx] at hp
      cases hsp : pySplitChar sep xs with
      | nil => exact absurd hsp (pySplit_ne_nil _ _)
      | cons g gs =>
        simp only [hsp] at hp
        cases List.mem_cons.mp hp with
        | inl h1 =>
          subst h1
          cases List.mem_cons.mp hc with
          | inl h2 =>
            subst h2
            exact List.mem_cons_self c xs
          | inr h3 =>
            have hg : g ∈ pySplitChar sep xs := by
              rw [hsp]
              exact List.mem_cons_self g gs
            exact List.mem_cons_of_mem x (ih g hg c h3)
        | inr h2 =>
          have hpm : p ∈ pySplitChar sep xs := by
            rw [hsp]
            exact List.mem_cons_of_mem g h2
          exact List.mem_cons_of_mem x (ih p hpm c hc)

theorem sep_not_mem_pySplit (sep : Char) :
    ∀ (l p : List Char), p ∈ pySplitChar sep l → sep ∉ p := by
  intro l
  induction l with
  | nil =>
    intro p hp
    simp only [pySplitChar, List.mem_singleton] at hp
    subst hp
    simp
  | cons x xs ih =>
    intro p hp
    simp only [pySplitChar] at hp
    by_cases hx : x = sep
    · rw [if_pos hx] at hp
      cases List.mem_cons.mp hp with
      | inl h1 => subst h1; simp
      | inr h2 => exact ih p h2
    · rw [if_neg hx] at hp
      cases hsp : pySplitChar sep xs with
      | nil => exact absurd hsp (pySplit_ne_nil _ _)
      | cons g gs =>
        simp only [hsp] at hp
        cases List.mem_cons.mp hp with
        | inl h1 =>
          subst h1
          intro hmem
          cases List.mem_cons.mp hmem with
          | inl h2 => exact hx h2.symm
          | inr h3 =>
            have hg : g ∈ pySplitChar sep xs := by
              rw [hsp]
              exact List.mem_cons_self g gs
            exact ih g hg h3
        | inr h2 =>
          have hpm : p ∈ pySplitChar sep xs := by
            rw [hsp]
            exact List.mem_cons_of_mem g h2
          exact ih p hpm

theorem mem_joinConverted :
    ∀ (ps : List (List Char)) (c : Char), c ∈ joinConverted ps →
      (∃ p ∈ ps, c ∈ p) ∨ c = dqChar ∨ c = btChar ∨ c = apChar
  | [], c, h => by simp [joinConverted] at h
  | [p], c, h => by
    simp only [joinConverted] at h
    exact Or.inl ⟨p, List.mem_singleton_self p, h⟩
  | [p, q], c, h => by
    simp only [joinConverted, List.mem_append, List.mem_cons] at h
    rcases h with h1 | h2 | h3
    · exact Or.inl ⟨p, by simp, h1⟩
    · exact Or.inr (Or.inl h2)
    · exact Or.inl ⟨q, by simp, h3⟩
  | p :: q :: r :: rest, c, h => by
    simp only [joinConverted, List.mem_append, List.mem_cons] at h
    rcases h with h1 | h2 | h2 | h3 | h4 | h4 | h5
    · exact Or.inl ⟨p, by simp, h1⟩
    · exact Or.inr (Or.inr (Or.inl h2))
    · exact Or.inr (Or.inr (Or.inl h2))
    · exact Or.inl ⟨q, by simp, h3⟩
    · exact Or.inr (Or.inr (Or.inr h4))
    · exact Or.inr (Or.inr (Or.inr h4))
    · cases mem_joinConverted (r :: rest) c h5 with
      | inl hh =>
        obtain ⟨p2, hp2, hcp2⟩ := hh
        cases List.mem_cons.mp hp2 with
        | inl hr1 => exact Or.inl ⟨p2, by simp [hr1], hcp2⟩
        | inr hr2 => exact Or.inl ⟨p2, by simp [hr2], hcp2⟩
      | inr hh => exact Or.inr hh

theorem count_joinConverted_le :
    ∀ (ps : List (List Char)), (∀ p ∈ ps, dqChar ∉ p) →
      (joinConverted ps).count dqChar ≤ 1
  | [], h => by simp [joinConverted]
  | [p], h => by
    simp only [joinConverted]
    rw [List.count_eq_zero.mpr (h p (by simp))]
    omega
  | [p, q], h => by
    simp only [joinConverted]
    rw [List.count_append, List.count_cons]
    rw [List.count_eq_zero.mpr (h p (by simp)),
      List.count_eq_zero.mpr (h q (by simp))]
    simp
  | p :: q :: r :: rest, h => by
    simp only [joinConverted]
    rw [List.count_append, List.count_cons, List.count_cons, List.count_append,
      List.count_cons, List.count_cons]
    rw [List.count_eq_zero.mpr (h p (by simp)),
      List.count_eq_zero.mpr (h q (by simp))]
    have hrec := count_joinConverted_le (r :: rest)
      (fun p2 hp2 => h p2 (by simp [List.mem_cons.mp hp2]))
    have hbt : (btChar == dqChar) = false := by decide
    have hap : (apChar == dqChar) = false := by decide
    rw [hbt, hap]
    simp only [Bool.false_eq_true, if_false]
    omega

theorem pySplit_one (sep : Char) (l a : List Char)
    (h : pySplitChar sep l = [a]) : l = a := by
  have hlen := pySplit_length sep l
  rw [h] at hlen
  simp only [List.length_singleton] at hlen
  have hcnt : l.count sep = 0 := by omega
  have hnm : sep ∉ l := by
    intro hmem
    have := List.count_pos_iff.mpr hmem
    omega
  have h2 := not_mem_pySplit sep l hnm
  rw [h2] at h
  simpa using h

theorem pySplit_two (sep : Char) :
    ∀ (l a b : List Char), pySplitChar sep l = [a, b] → l = a ++ sep :: b := by
  intro l
  induction l with
  | nil =>
    intro a b h
    simp [pySplitChar] at h
  | cons x xs ih =>
    intro a b h
    simp only [pySplitChar] at h
    by_cases hx : x = sep
    · rw [if_pos hx] at h
      injection h with h1 h2
      subst h1
      have hxs : xs = b := pySplit_one sep xs b h2
      subst hx
      subst hxs
      rfl
    · rw [if_neg hx] at h
      cases hsp : pySplitChar sep xs with
      | nil => exact absurd hsp (pySplit_ne_nil _ _)
      | cons g gs =>
        simp only [hsp] at h
        injection h with h1 h2
        have hxs : xs = g ++ sep :: b := by
          apply ih
          rw [hsp, h2]
        rw [hxs, ← h1]
        simp

theorem count_le_one_join (t : List Char) (h : t.count dqChar ≤ 1) :
    joinConverted (pySplitChar dqChar t) = t := by
  have hlen := pySplit_length dqChar t
  cases hsp : pySplitChar dqChar t with
  | nil => exact absurd hsp (pySplit_ne_nil _ _)
  | cons a gs =>
    cases gs with
    | nil =>
      have := pySplit_one dqChar t a hsp
      subst this
      simp [joinConverted]
    | cons b gs2 =>
      cases gs2 with
      | nil =>
        have := pySplit_two dqChar t a b hsp
        rw [this]
        simp [joinConverted]
      | cons c2 gs3 =>
        rw [hsp] at hlen
        simp only [List.length_cons] at hlen
        omega

/-- Claim C10: normalize_text is idempotent on every input: the first
pass removes every smart quote code point and leaves at most one ASCII
double quote, which the span rewriting of a second pass cannot pair, so
the second pass is the identity on any first-pass output. -/
theorem normalize_text_idempotent (s : List Char) :
    normalize_text (normalize_text s) = normalize_text s := by
  have hplain : ∀ c ∈ normalize_text s,
      smartDouble c = false ∧ smartSingle c = false := by
    intro c hc
    rw [normalize_text] at hc
    cases mem_joinConverted _ c hc with
    | inl hp =>
      obtain ⟨p, hpmem, hcp⟩ := hp
      have hcm : c ∈ s.map replaceSmart :=
        mem_pySplit_mem dqChar _ p hpmem c hcp
      obtain ⟨c0, hc0, hrepl⟩ := List.mem_map.mp hcm
      rw [← hrepl]
      exact replaceSmart_plain c0
    | inr hr =>
      rcases hr with h | h | h <;> (subst h; exact ⟨by decide, by decide⟩)
  have hmap : (normalize_text s).map replaceSmart = normalize_text s :=
    map_replaceSmart_of_plain _ hplain
  have hcount : (normalize_text s).count dqChar ≤ 1 := by
    rw [normalize_text]
    apply count_joinConverted_le
    intro p hp
    exact sep_not_mem_pySplit dqChar _ p hp
  have key : ∀ t : List Char, t.map replaceSmart = t → t.count dqChar ≤ 1 →
      normalize_text t = t := by
    intro t h1 h2
    rw [normalize_text, h1]
    exact count_le_one_join t h2
  exact key _ hmap hcount

theorem renderLoop_nil (t : DirTree) (pre : String) : renderLoop t pre [] = [] := by
  rw [renderLoop]

theorem renderLoop_cons_file (t : DirTree) (pre name : String)
    (rest : List (String × Bool)) :
    renderLoop t pre ((name, false) :: rest) =
      (pre ++ (if rest.isEmpty then "└──" else "├──") ++ " " ++ name) ::
        renderLoop t pre rest := by
  rw [renderLoop.eq_def]
  simp

theorem renderLoop_cons_dir (t : DirTree) (pre name : String)
    (rest : List (String × Bool)) (child : DirTree)
    (hl : (dirsOf t).lookup name = some child) :
    renderLoop t pre ((name, true) :: rest) =
      (pre ++ (if rest.isEmpty then "└──" else "├──") ++ " " ++ name) ::
        (render_tree child (pre ++ (if rest.isEmpty then "    " else "│   ")) ++
          renderLoop t pre rest) := by
  rw [renderLoop.eq_def]
  simp only [if_true]
  split
  all_goals
    split
    · rename_i child2 heq
      rw [hl] at heq
      injection heq with h1
      subst h1
      rfl
    · rename_i heq
      rw [hl] at heq
      exact absurd heq (by simp)

theorem render_tree_unfold (t : DirTree) (pre : String) :
    render_tree t pre = renderLoop t pre (entriesOf t) := by
  rw [render_tree]

/-- Claim C8: at every level render_tree lists the subdirectory names
first, in sorted order, then the file names in sorted order, each exactly
once (the rendered name sequences are permutations of the node entries);
every entry line carries the tee connector unless it is last at its
level, in which case it carries the corner connector; and the function is
a pure function of the tree, shown byte for byte on the specification
example with its indentation. -/
theorem render_tree_spec :
    render_tree (build_tree [["a", "x.txt"], ["a", "y.txt"], ["b.txt"]]) "" =
      ["├── a", "│   ├── x.txt", "│   └── y.txt", "└── b.txt"]
    ∧ (∀ t : DirTree,
        entriesOf t =
          (pySorted ((dirsOf t).map (fun p => p.1))).map (fun d => (d, true)) ++
            (pySorted (filesOf t)).map (fun f => (f, false))
        ∧ List.Sorted (fun a b : String => a ≤ b)
            (pySorted ((dirsOf t).map (fun p => p.1)))
        ∧ List.Sorted (fun a b : String => a ≤ b) (pySorted (filesOf t))
        ∧ (pySorted ((dirsOf t).map (fun p => p.1))).Perm
            ((dirsOf t).map (fun p => p.1))
        ∧ (pySorted (filesOf t)).Perm (filesOf t))
    ∧ (∀ (t : DirTree) (pre name : String) (isDir : Bool)
        (rest : List (String × Bool)),
        (renderLoop t pre ((name, isDir) :: rest)).head? =
          some (pre ++ (if rest.isEmpty then "└──" else "├──") ++ " " ++ name)) := by
  refine ⟨?_, ?_, ?_⟩
  · have hT : build_tree [["a", "x.txt"], ["a", "y.txt"], ["b.txt"]] =
        DirTree.node [("a", DirTree.node [] ["x.txt", "y.txt"])] ["b.txt"] := by
      simp [build_tree, insertPath, updateDir]
    rw [hT, render_tree_unfold]
    have hE : entriesOf
        (DirTree.node [("a", DirTree.node [] ["x.txt", "y.txt"])] ["b.txt"]) =
        [("a", true), ("b.txt", false)] := by decide
    rw [hE]
    rw [renderLoop_cons_dir _ _ _ _ (DirTree.node [] ["x.txt", "y.txt"]) (by rfl)]
    rw [render_tree_unfold]
    have hE2 : entriesOf (DirTree.node [] ["x.txt", "y.txt"]) =
        [("x.txt", false), ("y.txt", false)] := by
      simp [entriesOf, pySorted, dirsOf, filesOf, List.insertionSort,
        List.orderedInsert]
      rw [if_pos (by decide)]
      rfl
    rw [hE2]
    rw [renderLoop_cons_file, renderLoop_cons_file, renderLoop_nil,
      renderLoop_cons_file, renderLoop_nil]
    decide
  · intro t
    refine ⟨rfl, ?_, ?_, ?_, ?_⟩
    · exact List.sorted_insertionSort _ _
    · exact List.sorted_insertionSort _ _
    · exact List.perm_insertionSort _ _
    · exact List.perm_insertionSort _ _
  · intro t pre name isDir rest
    cases isDir with
    | false => rw [renderLoop_cons_file]; rfl
    | true =>
      rw [renderLoop.eq_def]
      simp only [if_true]
      split
      all_goals
        split
        all_goals rfl
